import Mathlib

/-!
# Verification of the Meower signal backend

A shallow embedding, in Lean 4, of the core data path of the Meower EEG
acquisition software: the 24-bit frame decoder, the UDP packet decoder, the
circular sample buffer with live resize, the UDP control-channel discovery
loop, the serial command/acknowledgment handshake, the fixed-point-to-volts
scaling and filter dispatch, and the Ricker-wavelet scalogram row selection.

Bytes are modelled as natural numbers below 256, machine integers as `Int`
(all intermediate values fit comfortably in the source's `int32`), and
floating-point sample processing as exact rational arithmetic.
-/

namespace Meower

/-! ## Frame decoder

From `src/python/GUI_control/signal_backend.py` (lookup-table variant) and
`src/python_mess/GUI_control/signal_backend.py` (mask-and-subtract variant).
A frame is 48 bytes: 16 channels of 3 bytes each, big-endian.
-/

/-- Decode failure, modelling the `ValueError` raised by `parse_frame` on a
wrong-size input (source: `signal_backend.py`, both variants). -/
inductive FormatErr : Type
  | badFrameLen : FormatErr
  | shortPacket : FormatErr
deriving DecidableEq, Repr

/-- `IDX_HIGH` of `src/python/GUI_control/signal_backend.py` line 54: the
index of channel `c`'s most significant byte is `3 * c`. -/
def IDX_HIGH (c : ℕ) : ℕ := 3 * c

/-- `SIGN_EXTEND_LUT` of `src/python/GUI_control/signal_backend.py` lines
60-62: entries 128..255 hold `-(1 <<< 24)`, the rest hold 0.  The table is
indexed by a byte, so we model it as a function on naturals that agrees with
the table on 0..255. -/
def SIGN_EXTEND_LUT (i : ℕ) : ℤ := if 128 ≤ i then -(2 ^ 24) else 0

/-- `parse_frame` of `src/python/GUI_control/signal_backend.py` lines 65-100:
checks for exactly 48 bytes, then for each channel `c` combines bytes
`3c, 3c+1, 3c+2` as `(high <<< 16) ||| (mid <<< 8) ||| low` and adds the
sign-extension table entry selected by the high byte. -/
def parse_frame (raw : List ℕ) : Except FormatErr (List ℤ) :=
  if raw.length = 48 then
    .ok ((List.range 16).map (fun c =>
      let hi := raw.getD (IDX_HIGH c) 0
      let mid := raw.getD (IDX_HIGH c + 1) 0
      let lo := raw.getD (IDX_HIGH c + 2) 0
      let val : ℕ := (hi <<< 16) ||| (mid <<< 8) ||| lo
      (val : ℤ) + SIGN_EXTEND_LUT hi))
  else .error .badFrameLen

/-- `parse_frame` of `src/python_mess/GUI_control/signal_backend.py` lines
76-88: same byte combination, but sign extension tests `val24 &&& 0x800000`
and subtracts `1 <<< 24` when the bit is set. -/
def parse_frame_mask (raw : List ℕ) : Except FormatErr (List ℤ) :=
  if raw.length = 48 then
    .ok ((List.range 16).map (fun c =>
      let val24 : ℕ :=
        (raw.getD (3 * c) 0 <<< 16) ||| (raw.getD (3 * c + 1) 0 <<< 8) |||
          raw.getD (3 * c + 2) 0
      if val24 &&& 0x800000 ≠ 0 then (val24 : ℤ) - 2 ^ 24 else (val24 : ℤ)))
  else .error .badFrameLen

/-- The specification's decoding of one channel: the big-endian 24-bit value,
sign-extended by subtracting `2^24` when bit 23 is set. -/
def sext24 (n : ℕ) : ℤ := if n.testBit 23 then (n : ℤ) - 2 ^ 24 else (n : ℤ)

/-- Big-endian 3-byte two's-complement encoding of an integer (the inverse
the specification asserts for `decode_frame`). -/
def encode24 (v : ℤ) : List ℕ :=
  let n : ℕ := (v % 2 ^ 24).toNat
  [n / 65536, n / 256 % 256, n % 256]

/-- A 16-channel frame laid out as 48 bytes, channel `c` at bytes `3c..3c+2`. -/
def encode_frame (vs : List ℤ) : List ℕ := (vs.map encode24).flatten

/-! ### Byte-merge arithmetic -/

theorem shiftLeft_or_byte (a b k : ℕ) (hb : b < 2 ^ k) :
    (a <<< k) ||| b = 2 ^ k * a + b := by
  rw [Nat.shiftLeft_eq, Nat.mul_comm]
  exact (Nat.mul_add_lt_is_or hb a).symm

theorem bytes_merge (a b c : ℕ) (hb : b < 256) (hc : c < 256) :
    (a <<< 16) ||| (b <<< 8) ||| c = 65536 * a + 256 * b + c := by
  have h1 : (a <<< 16) ||| (b <<< 8) = 65536 * a + 256 * b := by
    have hb16 : b <<< 8 < 2 ^ 16 := by
      rw [Nat.shiftLeft_eq]
      have : b * 2 ^ 8 < 256 * 2 ^ 8 := by
        exact Nat.mul_lt_mul_of_lt_of_le hb (le_refl _) (by norm_num)
      omega
    rw [shiftLeft_or_byte a (b <<< 8) 16 hb16, Nat.shiftLeft_eq]
    have : b * 2 ^ 8 = 256 * b := by ring
    omega
  have h2 : 65536 * a + 256 * b = 2 ^ 8 * (2 ^ 8 * a + b) := by ring
  rw [h1, h2, ← Nat.mul_add_lt_is_or hc (2 ^ 8 * a + b)]

theorem testBit23_combined (a r : ℕ) (ha : a < 256) (hr : r < 65536) :
    (65536 * a + r).testBit 23 = decide (128 ≤ a) := by
  have h : (65536 * a + r) = 2 ^ 16 * a + r := by norm_num
  rw [h, Nat.testBit_mul_pow_two_add a hr 23]
  simp only [show ¬(23 < 16) by norm_num, if_false]
  rw [Nat.testBit_to_div_mod]
  have h2 : a / 2 ^ 7 % 2 = 1 ↔ 128 ≤ a := by omega
  simp only [show (2:ℕ) ^ 7 = 128 from by norm_num] at h2
  simp [h2]

theorem and_bit23 (n : ℕ) : n &&& 0x800000 = (n.testBit 23).toNat * 2 ^ 23 := by
  have h : (0x800000 : ℕ) = 2 ^ 23 := by norm_num
  rw [h, Nat.and_two_pow]

/-- Channel value of the lookup-table decoder, written via `sext24`. -/
theorem lut_channel_eq (a b c : ℕ) (ha : a < 256) (hb : b < 256)
    (hc : c < 256) :
    ((((a <<< 16) ||| (b <<< 8) ||| c : ℕ) : ℤ) + SIGN_EXTEND_LUT a) =
      sext24 (65536 * a + 256 * b + c) := by
  rw [bytes_merge a b c hb hc]
  have ht : (65536 * a + 256 * b + c).testBit 23 = decide (128 ≤ a) := by
    have hr : 256 * b + c < 65536 := by omega
    have := testBit23_combined a (256 * b + c) ha hr
    rwa [← Nat.add_assoc] at this
  unfold sext24 SIGN_EXTEND_LUT
  rw [ht]
  by_cases h : 128 ≤ a <;> simp [h] <;> ring

/-- Channel value of the mask-and-subtract decoder, written via `sext24`. -/
theorem mask_channel_eq (n : ℕ) :
    (if n &&& 0x800000 ≠ 0 then (n : ℤ) - 2 ^ 24 else (n : ℤ)) = sext24 n := by
  rw [and_bit23]
  cases h : n.testBit 23 <;> simp [sext24, h]

theorem getD_lt_of_forall_lt (raw : List ℕ) (hb : ∀ x ∈ raw, x < 256) (i : ℕ)
    (hi : i < raw.length) : raw.getD i 0 < 256 := by
  rw [List.getD_eq_getElem raw 0 hi]
  exact hb _ (List.getElem_mem hi)

/-- The lookup-table `parse_frame` decodes channel `c` from bytes
`3c..3c+2` as the sign-extended big-endian 24-bit value. -/
theorem parse_frame_ok_channels (raw : List ℕ) (h48 : raw.length = 48)
    (hb : ∀ x ∈ raw, x < 256) :
    parse_frame raw = .ok ((List.range 16).map (fun c =>
      sext24 (65536 * raw.getD (3 * c) 0 + 256 * raw.getD (3 * c + 1) 0 +
        raw.getD (3 * c + 2) 0))) := by
  unfold parse_frame
  rw [if_pos h48]
  congr 1
  apply List.map_congr_left
  intro c hc
  rw [List.mem_range] at hc
  simp only [IDX_HIGH]
  exact lut_channel_eq _ _ _
    (getD_lt_of_forall_lt raw hb _ (by omega))
    (getD_lt_of_forall_lt raw hb _ (by omega))
    (getD_lt_of_forall_lt raw hb _ (by omega))

/-! ### Round trip through the 3-byte big-endian encoding -/

theorem encode24_length (v : ℤ) : (encode24 v).length = 3 := rfl

theorem encode24_bytes_lt (v : ℤ) : ∀ x ∈ encode24 v, x < 256 := by
  intro x hx
  have hn : ((v % 2 ^ 24).toNat) < 2 ^ 24 := by
    have h1 : 0 ≤ v % 2 ^ 24 := Int.emod_nonneg v (by norm_num)
    have h2 : v % 2 ^ 24 < 2 ^ 24 := Int.emod_lt_of_pos v (by norm_num)
    omega
  unfold encode24 at hx
  simp only [List.mem_cons, List.not_mem_nil, or_false] at hx
  rcases hx with rfl | rfl | rfl <;> omega

theorem encode_frame_length (vs : List ℤ) :
    (encode_frame vs).length = 3 * vs.length := by
  induction vs with
  | nil => rfl
  | cons v t ih =>
    unfold encode_frame at *
    simp only [List.map_cons, List.flatten_cons, List.length_append,
      encode24_length, ih, List.length_cons]
    ring

theorem encode_frame_bytes_lt (vs : List ℤ) :
    ∀ x ∈ encode_frame vs, x < 256 := by
  intro x hx
  unfold encode_frame at hx
  rw [List.mem_flatten] at hx
  obtain ⟨l, hl, hxl⟩ := hx
  rw [List.mem_map] at hl
  obtain ⟨v, _, rfl⟩ := hl
  exact encode24_bytes_lt v x hxl

theorem encode_frame_getD (vs : List ℤ) :
    ∀ (c : ℕ), c < vs.length → ∀ i, i < 3 →
      (encode_frame vs).getD (3 * c + i) 0 = (encode24 (vs.getD c 0)).getD i 0 := by
  induction vs with
  | nil => intro c hc; exact absurd hc (by simp)
  | cons v t ih =>
    intro c hc i hi
    cases c with
    | zero =>
      show ((encode24 v ++ encode_frame t).getD (3 * 0 + i) 0) = _
      rw [List.getD_append _ _ _ _ (by rw [encode24_length]; omega)]
      simp only [List.getD_cons_zero]
      norm_num
    | succ c =>
      show ((encode24 v ++ encode_frame t).getD (3 * (c + 1) + i) 0) = _
      have h3 : 3 * (c + 1) + i = (encode24 v).length + (3 * c + i) := by
        rw [encode24_length]; omega
      rw [h3, List.getD_append_right _ _ _ _ (by omega)]
      simp only [Nat.add_sub_cancel_left]
      exact ih c (by simpa using hc) i hi

theorem testBit23_of_lt (n : ℕ) (h : n < 2 ^ 24) :
    n.testBit 23 = decide (2 ^ 23 ≤ n) := by
  rw [Nat.testBit_to_div_mod]
  have : n / 2 ^ 23 % 2 = 1 ↔ 2 ^ 23 ≤ n := by omega
  simp only [decide_eq_decide]
  exact this

/-- Decoding the 3-byte big-endian two's-complement encoding of `v`
recovers `v`, for any `v` in the signed 24-bit range. -/
theorem sext24_encode24 (v : ℤ) (h1 : -(2 ^ 23) ≤ v) (h2 : v < 2 ^ 23) :
    sext24 (65536 * (encode24 v).getD 0 0 + 256 * (encode24 v).getD 1 0 +
      (encode24 v).getD 2 0) = v := by
  unfold encode24
  simp only [List.getD_cons_zero, List.getD_cons_succ]
  set n : ℕ := (v % 2 ^ 24).toNat with hn
  have hn24 : n < 2 ^ 24 := by
    have ha : 0 ≤ v % 2 ^ 24 := Int.emod_nonneg v (by norm_num)
    have hb : v % 2 ^ 24 < 2 ^ 24 := Int.emod_lt_of_pos v (by norm_num)
    omega
  have hrecomp : 65536 * (n / 65536) + 256 * (n / 256 % 256) + n % 256 = n := by
    omega
  rw [hrecomp]
  unfold sext24
  rw [testBit23_of_lt n hn24]
  simp only [decide_eq_true_eq]
  have hv : (n : ℤ) = v % 2 ^ 24 := by
    have : 0 ≤ v % 2 ^ 24 := Int.emod_nonneg v (by norm_num)
    omega
  by_cases hpos : 0 ≤ v
  · have hmod : v % 2 ^ 24 = v := Int.emod_eq_of_lt hpos (by omega)
    have hlt : ¬ (2 ^ 23 ≤ n) := by omega
    rw [if_neg hlt]
    omega
  · have hmod : v % 2 ^ 24 = v + 2 ^ 24 := by omega
    have hge : 2 ^ 23 ≤ n := by omega
    rw [if_pos hge]
    omega

/-- C1: for every 48-byte input, `parse_frame` returns the 16 signed values
obtained by decoding bytes `3c..3c+2` of channel `c` as a big-endian 24-bit
two's-complement value (sign-extended by subtracting `2^24` when bit 23 is
set); and for every frame of values in `[-2^23, 2^23-1]`, decoding the
3-byte big-endian encoding recovers exactly those values. -/
theorem parse_frame_decode_correct (raw : List ℕ) (h48 : raw.length = 48)
    (hb : ∀ x ∈ raw, x < 256) (vs : List ℤ) (hlen : vs.length = 16)
    (hrange : ∀ v ∈ vs, -(2 ^ 23) ≤ v ∧ v < 2 ^ 23) :
    parse_frame raw = .ok ((List.range 16).map (fun c =>
      sext24 (65536 * raw.getD (3 * c) 0 + 256 * raw.getD (3 * c + 1) 0 +
        raw.getD (3 * c + 2) 0)))
    ∧ parse_frame (encode_frame vs) = .ok vs := by
  refine ⟨parse_frame_ok_channels raw h48 hb, ?_⟩
  rw [parse_frame_ok_channels (encode_frame vs)
    (by rw [encode_frame_length, hlen]) (encode_frame_bytes_lt vs)]
  congr 1
  apply List.ext_getElem
  · simp [hlen]
  · intro i h1 h2
    simp only [List.getElem_map, List.getElem_range]
    have hi16 : i < 16 := by simpa using h1
    have hiv : i < vs.length := by omega
    have e0 : (encode_frame vs).getD (3 * i) 0 =
        (encode24 (vs.getD i 0)).getD 0 0 := by
      have h := encode_frame_getD vs i hiv 0 (by omega)
      simpa using h
    have e1 : (encode_frame vs).getD (3 * i + 1) 0 =
        (encode24 (vs.getD i 0)).getD 1 0 :=
      encode_frame_getD vs i hiv 1 (by omega)
    have e2 : (encode_frame vs).getD (3 * i + 2) 0 =
        (encode24 (vs.getD i 0)).getD 2 0 :=
      encode_frame_getD vs i hiv 2 (by omega)
    rw [e0, e1, e2]
    have hmem : vs.getD i 0 ∈ vs := by
      rw [List.getD_eq_getElem vs 0 hiv]
      exact List.getElem_mem hiv
    have hr := hrange _ hmem
    rw [sext24_encode24 (vs.getD i 0) hr.1 hr.2]
    exact List.getD_eq_getElem vs 0 hiv

/-- A 16-channel test frame exercising both signs and both range ends. -/
def vs16 : List ℤ :=
  [0, 1, -1, 8388607, -8388608, 2, -2, 100, -100, 1000, -1000, 65536,
    -65536, 4194304, -4194304, 42]

/-- Witness for C1 at a concrete frame: encoding `vs16` and decoding it
with `parse_frame` yields `vs16` back. -/
theorem parse_frame_decode_correct_witness :
    parse_frame (encode_frame vs16) = .ok vs16 :=
  (parse_frame_decode_correct (encode_frame vs16) (by decide) (by decide)
    vs16 (by decide) (by decide)).2

/-- C10: the lookup-table decoder of `src/python/GUI_control` and the
mask-and-subtract decoder of `src/python_mess/GUI_control` agree on every
input whose entries are bytes (and in particular on every 48-byte frame). -/
theorem parse_frame_lut_eq_mask (raw : List ℕ) (hb : ∀ x ∈ raw, x < 256) :
    parse_frame raw = parse_frame_mask raw := by
  unfold parse_frame parse_frame_mask
  by_cases h48 : raw.length = 48
  · rw [if_pos h48, if_pos h48]
    congr 1
    apply List.map_congr_left
    intro c hc
    rw [List.mem_range] at hc
    have h0 := getD_lt_of_forall_lt raw hb (3 * c) (by omega)
    have h1 := getD_lt_of_forall_lt raw hb (3 * c + 1) (by omega)
    have h2 := getD_lt_of_forall_lt raw hb (3 * c + 2) (by omega)
    simp only [IDX_HIGH]
    rw [mask_channel_eq, lut_channel_eq _ _ _ h0 h1 h2,
      bytes_merge _ _ _ h1 h2]
  · rw [if_neg h48, if_neg h48]

/-- A concrete 48-byte frame with both negative and positive channels. -/
def raw48 : List ℕ := (List.range 48).map (fun i => (37 * i + 129) % 256)

/-- Witness for C10 at a concrete 48-byte frame. -/
theorem parse_frame_lut_eq_mask_witness :
    parse_frame raw48 = parse_frame_mask raw48 :=
  parse_frame_lut_eq_mask raw48 (by decide)

/-! ## Packet decoder

From the receive path of `_Reader.run` in
`src/python/GUI_control/signal_backend.py` lines 225-254 (and equally
`udp_reader_process` in `src/python_mess/UDP_server_control_from_PC_v07.py`):
a datagram shorter than `FRAMESIZE` is rejected; otherwise
`frames = (len - 4) / FRAMESIZE` whole 52-byte frames are decoded (48 data
bytes through `parse_frame`, then a 4-byte little-endian timestamp) and the
battery float is read from the 4 bytes at offset `frames * FRAMESIZE`.
-/

/-- `FRAMESIZE` of `_Reader`: 48 bytes of samples + 4 bytes of timestamp. -/
def FRAMESIZE : ℕ := 52

/-- Little-endian 32-bit word from the first four entries of a byte list,
modelling both the `<I` timestamp unpack and the bit pattern that `<f`
interprets as the battery voltage. -/
def le32 (bs : List ℕ) : ℕ :=
  bs.getD 0 0 + 256 * bs.getD 1 0 + 65536 * bs.getD 2 0 +
    16777216 * bs.getD 3 0

/-- Sequenced decoding of the frame loop: stops at the first failing frame,
mirroring an exception escaping the `for n in range(frames)` loop. -/
def mapExcept {α : Type} (f : ℕ → Except FormatErr α) :
    List ℕ → Except FormatErr (List α)
  | [] => .ok []
  | n :: ns =>
    match f n with
    | .error e => .error e
    | .ok a =>
      match mapExcept f ns with
      | .error e => .error e
      | .ok as => .ok (a :: as)

/-- One frame of the packet: `parse_frame` on bytes `base..base+47`, then
the little-endian timestamp at `base+48`. -/
def decode_nth_frame (pkt : List ℕ) (n : ℕ) : Except FormatErr (List ℤ × ℕ) :=
  let base := n * FRAMESIZE
  match parse_frame ((pkt.drop base).take 48) with
  | .error e => .error e
  | .ok s => .ok (s, le32 ((pkt.drop (base + 48)).take 4))

/-- The packet decode of `_Reader.run`: reject datagrams shorter than one
frame, else decode every whole frame and the trailing battery word. -/
def decode_packet (pkt : List ℕ) :
    Except FormatErr (List (List ℤ × ℕ) × ℕ) :=
  if pkt.length < FRAMESIZE then .error .shortPacket
  else
    let frames := (pkt.length - 4) / FRAMESIZE
    let batt := le32 ((pkt.drop (frames * FRAMESIZE)).take 4)
    Except.map (fun fs => (fs, batt))
      (mapExcept (decode_nth_frame pkt) (List.range frames))

theorem mapExcept_ok {α : Type} (f : ℕ → Except FormatErr α) :
    ∀ l : List ℕ, (∀ n ∈ l, ∃ a, f n = .ok a) →
      ∃ out, mapExcept f l = .ok out ∧ out.length = l.length := by
  intro l
  induction l with
  | nil => intro _; exact ⟨[], rfl, rfl⟩
  | cons n ns ih =>
    intro h
    obtain ⟨a, ha⟩ := h n (List.mem_cons_self n ns)
    obtain ⟨out, hout, hlen⟩ := ih (fun m hm => h m (List.mem_cons_of_mem n hm))
    refine ⟨a :: out, ?_, by simpa using hlen⟩
    unfold mapExcept
    rw [ha, hout]

theorem parse_frame_isOk (raw : List ℕ) (h : raw.length = 48) :
    ∃ s, parse_frame raw = .ok s := by
  unfold parse_frame
  rw [if_pos h]
  exact ⟨_, rfl⟩

theorem decode_nth_frame_ok (pkt : List ℕ) (n : ℕ)
    (h : n * FRAMESIZE + 48 ≤ pkt.length) :
    ∃ a, decode_nth_frame pkt n = .ok a := by
  have hslice : ((pkt.drop (n * FRAMESIZE)).take 48).length = 48 := by
    simp only [List.length_take, List.length_drop]
    omega
  obtain ⟨s, hs⟩ := parse_frame_isOk _ hslice
  refine ⟨(s, le32 ((pkt.drop (n * FRAMESIZE + 48)).take 4)), ?_⟩
  simp only [decode_nth_frame, hs]

/-- C2: decoding a datagram of length `L` yields exactly `(L - 4) / 52`
frames plus the trailing little-endian battery word when `L ≥ 52`, without
failing on any short or misaligned trailing remainder, and fails
(`FormatErr.shortPacket`) exactly when `L < 52`. -/
theorem decode_packet_frame_count (pkt : List ℕ) :
    (pkt.length < 52 → decode_packet pkt = .error .shortPacket)
    ∧ (52 ≤ pkt.length → ∃ fs,
        decode_packet pkt =
          .ok (fs, le32 ((pkt.drop ((pkt.length - 4) / 52 * 52)).take 4))
        ∧ fs.length = (pkt.length - 4) / 52) := by
  constructor
  · intro h
    unfold decode_packet
    rw [if_pos (by unfold FRAMESIZE; omega)]
  · intro h
    have hmul : (pkt.length - 4) / 52 * 52 ≤ pkt.length - 4 :=
      Nat.div_mul_le_self (pkt.length - 4) 52
    have hok : ∀ n ∈ List.range ((pkt.length - 4) / 52),
        ∃ a, decode_nth_frame pkt n = .ok a := by
      intro n hn
      rw [List.mem_range] at hn
      apply decode_nth_frame_ok
      unfold FRAMESIZE
      have : (n + 1) * 52 ≤ (pkt.length - 4) / 52 * 52 :=
        Nat.mul_le_mul_right 52 hn
      omega
    obtain ⟨fs, hfs, hlen⟩ := mapExcept_ok (decode_nth_frame pkt) _ hok
    refine ⟨fs, ?_, by simpa using hlen⟩
    unfold decode_packet
    rw [if_neg (by unfold FRAMESIZE; omega)]
    show Except.map _ (mapExcept (decode_nth_frame pkt)
      (List.range ((pkt.length - 4) / FRAMESIZE))) = _
    unfold FRAMESIZE
    rw [hfs]
    rfl

/-- Witness for C2 at a concrete 56-byte datagram (one whole frame plus a
4-byte misaligned remainder counted into the battery word). -/
theorem decode_packet_frame_count_witness :
    ∃ fs, decode_packet (List.range 56) =
        .ok (fs, le32 (((List.range 56).drop
          (((List.range 56).length - 4) / 52 * 52)).take 4))
      ∧ fs.length = ((List.range 56).length - 4) / 52 :=
  (decode_packet_frame_count (List.range 56)).2 (by decide)

/-! ## Circular sample buffer

From `_Reader.run` in `src/python/GUI_control/signal_backend.py`: `buf_raw`
with write pointer `ptr`.  A push writes at `ptr` and advances it modulo
the capacity (lines 249-254); the published snapshot is the buffer itself
when `ptr = 0` and `buf[ptr:] ++ buf[:ptr]` otherwise (lines 276-285); the
periodic resize (lines 179-210) copies history only when `ptr > 0`.
-/

/-- The circular buffer state: storage plus the next write position. -/
structure Ring (α : Type) where
  buf : List α
  ptr : ℕ
deriving DecidableEq, Repr

/-- `buf_raw[ptr] = frame; ptr = (ptr + 1) % current_buf_len`. -/
def Ring.push {α : Type} (r : Ring α) (x : α) : Ring α :=
  { buf := r.buf.set r.ptr x, ptr := (r.ptr + 1) % r.buf.length }

/-- The oldest-to-newest reordering published under the lock:
`buf` itself when the pointer just wrapped, else `buf[ptr:] ++ buf[:ptr]`. -/
def Ring.snapshotList {α : Type} (r : Ring α) : List α :=
  if r.ptr = 0 then r.buf else r.buf.drop r.ptr ++ r.buf.take r.ptr

/-- `np.zeros((buf_len, n_ch))` with the write pointer at 0. -/
def Ring.init {α : Type} (cap : ℕ) (d : α) : Ring α :=
  { buf := List.replicate cap d, ptr := 0 }

/-- Push a whole burst of decoded frames, in arrival order. -/
def Ring.pushAll {α : Type} (r : Ring α) (xs : List α) : Ring α :=
  xs.foldl Ring.push r

theorem Ring.push_buf_length {α : Type} (r : Ring α) (x : α) :
    (r.push x).buf.length = r.buf.length := by
  simp [Ring.push]

theorem Ring.push_ptr_lt {α : Type} (r : Ring α) (x : α)
    (h : 0 < r.buf.length) : (r.push x).ptr < r.buf.length :=
  Nat.mod_lt _ h

theorem Ring.snapshot_length {α : Type} (r : Ring α)
    (h : r.ptr ≤ r.buf.length) : r.snapshotList.length = r.buf.length := by
  unfold Ring.snapshotList
  by_cases h0 : r.ptr = 0
  · rw [if_pos h0]
  · rw [if_neg h0]
    simp only [List.length_append, List.length_drop, List.length_take]
    omega

/-- One push shifts the oldest entry out of the snapshot and appends the
new entry at its newest end. -/
theorem Ring.push_snapshot {α : Type} (r : Ring α) (x : α)
    (h : r.ptr < r.buf.length) :
    (r.push x).snapshotList = r.snapshotList.drop 1 ++ [x] := by
  obtain ⟨buf, p⟩ := r
  simp only at h
  have hset : buf.set p x = buf.take p ++ x :: buf.drop (p + 1) :=
    List.set_eq_take_cons_drop x h
  unfold Ring.push Ring.snapshotList
  simp only
  by_cases hp0 : p = 0
  · subst hp0
    simp only [List.take_zero, List.nil_append] at hset
    rw [if_pos rfl, hset]
    by_cases hL : buf.length = 1
    · have hmod : 1 % buf.length = 0 := by rw [hL]
      rw [hmod, if_pos rfl]
      have hdrop : buf.drop 1 = [] := List.drop_eq_nil_of_le (by omega)
      simp [hdrop]
    · have hmod : 1 % buf.length = 1 := Nat.mod_eq_of_lt (by omega)
      rw [hmod, if_neg one_ne_zero]
      simp
  · rw [if_neg hp0, hset]
    have hd1 : (buf.drop p ++ buf.take p).drop 1 =
        buf.drop (p + 1) ++ buf.take p := by
      rw [List.drop_append_of_le_length (by simp; omega), List.drop_drop]
    by_cases hwrap : p + 1 = buf.length
    · have hmod : (p + 1) % buf.length = 0 := by rw [hwrap, Nat.mod_self]
      rw [hmod, if_pos rfl, hd1]
      have hdrop : buf.drop (p + 1) = [] := List.drop_eq_nil_of_le (by omega)
      simp [hdrop]
    · have hmod : (p + 1) % buf.length = p + 1 := Nat.mod_eq_of_lt (by omega)
      rw [hmod, if_neg (by omega), hd1]
      have hlen : (buf.take p).length = p := List.length_take_of_le (by omega)
      have hdpart : (buf.take p ++ x :: buf.drop (p + 1)).drop (p + 1) =
          buf.drop (p + 1) := by
        have : p + 1 = (buf.take p).length + 1 := by omega
        rw [this, List.drop_append]
        simp
      have htpart : (buf.take p ++ x :: buf.drop (p + 1)).take (p + 1) =
          buf.take p ++ [x] := by
        rw [List.take_append_eq_append_take, List.take_take]
        simp [hlen]
      rw [hdpart, htpart, List.append_assoc]

theorem drop_succ_append {α : Type} (s t : List α) (hs : s ≠ []) (n : ℕ) :
    (s ++ t).drop (n + 1) = (s.drop 1 ++ t).drop n := by
  cases s with
  | nil => exact absurd rfl hs
  | cons a s => simp

/-- Folding a burst of pushes: the resulting snapshot is the final window
of `initial snapshot ++ pushes`, in arrival order. -/
theorem Ring.pushAll_snapshot {α : Type} :
    ∀ (xs : List α) (r : Ring α), 0 < r.buf.length → r.ptr < r.buf.length →
      (r.pushAll xs).snapshotList = (r.snapshotList ++ xs).drop xs.length
      ∧ (r.pushAll xs).buf.length = r.buf.length
      ∧ (r.pushAll xs).ptr < r.buf.length := by
  intro xs
  induction xs with
  | nil => intro r h0 hp; exact ⟨by simp [Ring.pushAll], rfl, hp⟩
  | cons x xs ih =>
    intro r h0 hp
    have hstep : (r.push x).buf.length = r.buf.length := r.push_buf_length x
    have hp2 : (r.push x).ptr < (r.push x).buf.length := by
      rw [hstep]; exact r.push_ptr_lt x h0
    have hall : r.pushAll (x :: xs) = (r.push x).pushAll xs := by
      simp [Ring.pushAll]
    obtain ⟨hsnap, hlen, hptr⟩ := ih (r.push x) (by omega) hp2
    refine ⟨?_, by rw [hall, hlen, hstep], by rw [hall]; omega⟩
    rw [hall, hsnap, r.push_snapshot x hp]
    have hne : r.snapshotList ≠ [] := by
      have := r.snapshot_length (le_of_lt hp)
      intro hnil
      rw [hnil] at this
      simp at this
      omega
    rw [List.length_cons, drop_succ_append r.snapshotList (x :: xs) hne
      xs.length, List.append_assoc]
    rfl

/-- C3: starting from the freshly initialised buffer, the published
snapshot always holds exactly `capacity` entries, equal to the last
`capacity` entries of `initial zeros ++ pushes` in oldest-to-newest arrival
order; after `capacity + 1` pushes it holds every pushed entry except
exactly the oldest, in arrival order. -/
theorem ring_snapshot_order {α : Type} (cap : ℕ) (d : α) (xs : List α)
    (hcap : 0 < cap) :
    ((Ring.init cap d).pushAll xs).snapshotList =
      (List.replicate cap d ++ xs).drop xs.length
    ∧ ((Ring.init cap d).pushAll xs).snapshotList.length = cap
    ∧ (xs.length = cap + 1 →
        ((Ring.init cap d).pushAll xs).snapshotList = xs.drop 1) := by
  have hinit : (Ring.init cap d).buf.length = cap := by simp [Ring.init]
  have hptr : (Ring.init cap d).ptr < (Ring.init cap d).buf.length := by
    simp [Ring.init]; omega
  obtain ⟨hsnap, hlen, hp⟩ := Ring.pushAll_snapshot xs (Ring.init cap d)
    (by omega) hptr
  have hsnap0 : (Ring.init cap d).snapshotList = List.replicate cap d := by
    simp [Ring.init, Ring.snapshotList]
  rw [hsnap0] at hsnap
  refine ⟨hsnap, ?_, ?_⟩
  · rw [((Ring.init cap d).pushAll xs).snapshot_length (by omega), hlen, hinit]
  · intro hx
    rw [hsnap, hx, show cap + 1 = (List.replicate cap d).length + 1 from
      by simp, List.drop_append]

/-- Witness for C3: capacity 3, pushes `[1, 2, 3, 4]`; the snapshot is
`[2, 3, 4]` — everything but the oldest push, in arrival order. -/
theorem ring_snapshot_order_witness :
    ((Ring.init 3 (0 : ℤ)).pushAll [1, 2, 3, 4]).snapshotList = [2, 3, 4] := by
  have h := (ring_snapshot_order 3 (0 : ℤ) [1, 2, 3, 4] (by decide)).2.2
    (by decide)
  simpa using h

/-! ## Buffer resize

`_Reader.run` lines 179-210: when the configured capacity changes, a fresh
zero buffer is allocated; existing data is copied *only when `ptr > 0`*
(the code's proxy for "any data present"), reordered oldest-first, keeping
the newest `min(old, new)` entries (shrinking) or right-aligned with
zero-padding in front (growing); the pointer resets to 0.

The shrink copy is `new_buf[:] = old_ordered[-copy_len:]`; Python's
negative-zero slice makes `old_ordered[-0:]` the *whole* old buffer, so a
resize to capacity 0 with `ptr > 0` attempts a shape-mismatched numpy
assignment and raises, which we model as an error result.
-/

/-- The numpy broadcast failure of a shape-mismatched slice assignment. -/
inductive ResizeCrash : Type
  | broadcastMismatch : ResizeCrash
deriving DecidableEq, Repr

/-- The resize step of `_Reader.run` lines 186-210. -/
def Ring.resize {α : Type} (r : Ring α) (newCap : ℕ) (d : α) :
    Except ResizeCrash (Ring α) :=
  if 0 < r.ptr then
    let old := r.buf.drop r.ptr ++ r.buf.take r.ptr
    let copyLen := min r.buf.length newCap
    if newCap < r.buf.length then
      let src := if copyLen = 0 then old else old.drop (old.length - copyLen)
      if src.length = newCap then .ok { buf := src, ptr := 0 }
      else .error .broadcastMismatch
    else .ok { buf := List.replicate (newCap - copyLen) d ++ old, ptr := 0 }
  else .ok { buf := List.replicate newCap d, ptr := 0 }

/-- C4 (failing input): after exactly `capacity` pushes the pointer sits at
0 while the buffer is full, and the grow-resize then discards every stored
sample instead of preserving them zero-padded at the front. -/
theorem ring_resize_wrap_drops_history :
    ((Ring.init 2 (0 : ℤ)).pushAll [1, 2]).buf = [1, 2]
    ∧ ((Ring.init 2 (0 : ℤ)).pushAll [1, 2]).ptr = 0
    ∧ ((Ring.init 2 (0 : ℤ)).pushAll [1, 2]).resize 3 0 =
        .ok { buf := [0, 0, 0], ptr := 0 }
    ∧ (({ buf := [0, 0, 0], ptr := 0 } : Ring ℤ)).buf ≠ [0, 1, 2] :=
  ⟨rfl, rfl, rfl, by decide⟩

/-! ## Reconfiguration to capacity zero

`SignalWorker.update_cfg` (`src/python/GUI_control/signal_backend.py` lines
384-401) stores any given field values without validation and recomputes
`buf_len = sample_rate * buf_secs`.
-/

/-- `SigConfig` of `src/python/GUI_control/signal_backend.py`. -/
structure SigConfig : Type where
  sample_rate : ℕ
  buf_secs : ℕ
deriving DecidableEq, Repr

/-- `buf_len`: total samples per channel in the circular buffer. -/
def SigConfig.buf_len (c : SigConfig) : ℕ := c.sample_rate * c.buf_secs

/-- `update_cfg(sample_rate=v)`: stores the value; no validation. -/
def update_cfg_sample_rate (c : SigConfig) (v : ℕ) : SigConfig :=
  { c with sample_rate := v }

/-- C5 counterexample: a capacity-zero reconfiguration is *not* rejected —
`update_cfg(sample_rate=0)` is stored and makes `buf_len` 0, and the
reader's next resize step either empties the buffer (pointer 0) or crashes
on the numpy copy (pointer 1), so the prior buffer does not stay active. -/
theorem resize_zero_accepted :
    (update_cfg_sample_rate { sample_rate := 250, buf_secs := 4 } 0).buf_len = 0
    ∧ Ring.resize { buf := ([5, 6] : List ℤ), ptr := 0 } 0 0 =
        .ok { buf := [], ptr := 0 }
    ∧ Ring.resize { buf := ([5, 6] : List ℤ), ptr := 1 } 0 0 =
        .error .broadcastMismatch :=
  ⟨rfl, rfl, rfl⟩

/-- C5 (amended): requesting capacity 0 is accepted by `update_cfg` and,
on the reader's next resize check, reallocates the buffer to capacity 0
discarding all samples (pointer 0) or raises out of the reader loop on the
shape-mismatched copy (pointer > 0, non-empty buffer). -/
theorem resize_zero_behavior (cfg : SigConfig) (buf : List ℤ) (p : ℕ) :
    (update_cfg_sample_rate cfg 0).buf_len = 0
    ∧ (p = 0 → Ring.resize { buf := buf, ptr := p } 0 0 =
        .ok { buf := [], ptr := 0 })
    ∧ (0 < p → buf ≠ [] → Ring.resize { buf := buf, ptr := p } 0 0 =
        .error .broadcastMismatch) := by
  refine ⟨by simp [update_cfg_sample_rate, SigConfig.buf_len], ?_, ?_⟩
  · intro hp
    subst hp
    simp [Ring.resize]
  · intro hp hbuf
    have hlen : 0 < buf.length := List.length_pos.mpr hbuf
    have holdlen : (buf.drop p ++ buf.take p).length = buf.length := by
      simp only [List.length_append, List.length_drop, List.length_take]
      omega
    simp only [Ring.resize]
    rw [if_pos hp, if_pos hlen, Nat.min_zero, if_pos rfl,
      if_neg (by rw [holdlen]; omega)]

/-- Witness for C5's amended claim at pointer 1 and buffer `[5, 6]`. -/
theorem resize_zero_behavior_witness :
    Ring.resize { buf := ([5, 6] : List ℤ), ptr := 1 } 0 0 =
      .error .broadcastMismatch :=
  (resize_zero_behavior { sample_rate := 250, buf_secs := 4 } [5, 6] 1).2.2
    (by decide) (by decide)

/-! ## Control-channel discovery and rebinding

From `UDPManager._loop` in `src/python_mess/GUI_control/udp_backend.py`
lines 169-177: when `board_ip` is unset, the source address of the first
inbound packet is adopted; a later packet from a different address logs one
IP-changed (reconnect) message and rebinds; packets from the bound address
change nothing.
-/

/-- The discovery-relevant state of `UDPManager`: the learned board address
and how many IP-changed (reconnect) events have been raised. -/
structure CtrlState (A : Type) : Type where
  board_ip : Option A
  reconnects : ℕ
deriving DecidableEq, Repr

/-- Processing one inbound packet's source address (lines 169-177). -/
def ctrl_recv {A : Type} [DecidableEq A] (st : CtrlState A) (addr : A) :
    CtrlState A :=
  match st.board_ip with
  | none => { board_ip := some addr, reconnects := st.reconnects }
  | some ip =>
    if addr ≠ ip then
      { board_ip := some addr, reconnects := st.reconnects + 1 }
    else st

/-- The receive loop over a sequence of inbound source addresses. -/
def ctrl_run {A : Type} [DecidableEq A] (st : CtrlState A) (addrs : List A) :
    CtrlState A :=
  addrs.foldl ctrl_recv st

/-- Number of address changes along a packet sequence, seen from `prev`. -/
def countChanges {A : Type} [DecidableEq A] : A → List A → ℕ
  | _, [] => 0
  | prev, a :: rest => (if a ≠ prev then 1 else 0) + countChanges a rest

theorem ctrl_run_bound {A : Type} [DecidableEq A] :
    ∀ (rest : List A) (ip : A) (n : ℕ),
      (ctrl_run { board_ip := some ip, reconnects := n } rest).board_ip =
        some (rest.getLastD ip)
      ∧ (ctrl_run { board_ip := some ip, reconnects := n } rest).reconnects =
          n + countChanges ip rest := by
  intro rest
  induction rest with
  | nil => intro ip n; exact ⟨rfl, rfl⟩
  | cons a rest ih =>
    intro ip n
    have hstep : ctrl_run { board_ip := some ip, reconnects := n } (a :: rest)
        = ctrl_run (ctrl_recv { board_ip := some ip, reconnects := n } a)
            rest := rfl
    by_cases hne : a = ip
    · subst hne
      have hrecv : ctrl_recv { board_ip := some a, reconnects := n } a =
          { board_ip := some a, reconnects := n } := by
        simp [ctrl_recv]
      rw [hstep, hrecv]
      obtain ⟨h1, h2⟩ := ih a n
      refine ⟨by rw [h1, List.getLastD_cons], by rw [h2]; simp [countChanges]⟩
    · have hrecv : ctrl_recv { board_ip := some ip, reconnects := n } a =
          { board_ip := some a, reconnects := n + 1 } := by
        simp [ctrl_recv, hne]
      rw [hstep, hrecv]
      obtain ⟨h1, h2⟩ := ih a (n + 1)
      refine ⟨by rw [h1, List.getLastD_cons],
        by rw [h2]; simp [countChanges, hne]; omega⟩

/-- C6: the first inbound packet's source address becomes the bound board
address without raising a reconnect event; every later packet from a
different address rebinds to it and raises exactly one reconnect event, so
over any packet sequence the bound address is the last source address and
the reconnect count equals the number of address changes. -/
theorem ctrl_rebind_events {A : Type} [DecidableEq A] (a : A) (rest : List A)
    (ip addr : A) (n : ℕ) :
    (ctrl_recv { board_ip := none, reconnects := n } a).board_ip = some a
    ∧ (ctrl_recv { board_ip := none, reconnects := n } a).reconnects = n
    ∧ (addr ≠ ip → ctrl_recv { board_ip := some ip, reconnects := n } addr =
        { board_ip := some addr, reconnects := n + 1 })
    ∧ (ctrl_run { board_ip := none, reconnects := 0 } (a :: rest)).board_ip =
        some (rest.getLastD a)
    ∧ (ctrl_run { board_ip := none, reconnects := 0 } (a :: rest)).reconnects
        = countChanges a rest := by
  refine ⟨rfl, rfl, fun h => by simp [ctrl_recv, h], ?_, ?_⟩
  · have hstep : ctrl_run { board_ip := none, reconnects := 0 } (a :: rest) =
        ctrl_run { board_ip := some a, reconnects := 0 } rest := rfl
    rw [hstep]
    exact (ctrl_run_bound rest a 0).1
  · have hstep : ctrl_run { board_ip := none, reconnects := 0 } (a :: rest) =
        ctrl_run { board_ip := some a, reconnects := 0 } rest := rfl
    rw [hstep]
    have := (ctrl_run_bound rest a 0).2
    omega

/-- Witness for C6: beacon from address 1 then a reply from address 2
rebinds 1 → 2 with exactly one reconnect event; a four-packet session with
one change raises exactly one event. -/
theorem ctrl_rebind_events_witness :
    ctrl_recv { board_ip := some 1, reconnects := 0 } (2 : ℕ) =
      { board_ip := some 2, reconnects := 1 }
    ∧ (ctrl_run { board_ip := none, reconnects := 0 }
        ([1, 1, 2, 2] : List ℕ)).reconnects = 1 := by
  have h := ctrl_rebind_events (A := ℕ) 1 [1, 2, 2] 1 2 0
  refine ⟨h.2.2.1 (by decide), ?_⟩
  have h2 := h.2.2.2.2
  simpa [countChanges] using h2

/-! ## Serial command acknowledgment

From `SerialManager.send_and_wait` in
`src/python_mess/GUI_control/serial_backend.py` lines 107-149: drain every
stale queued acknowledgment, send the command once, then consume queued
lines until one whose stripped form starts with the OK/ERR prefix arrives
(success) or the deadline passes (failure); non-ack lines are skipped, and
there is no resend.  We model the lines that arrive on `ack_q` before the
deadline as an explicit list.
-/

/-- `line.strip().startswith(("OK", "ERR"))` of line 140-141. -/
def isAckLine (line : String) : Bool :=
  let clean := line.trim
  let okPfx : String := "OK"
  let errPfx : String := "ERR"
  clean.startsWith okPfx || clean.startsWith errPfx

/-- The wait loop: take queued lines in order, succeed on the first
ack-prefixed one, fail when the queue is exhausted before the deadline. -/
def wait_for_ack : List String → Bool
  | [] => false
  | line :: rest => if isAckLine line then true else wait_for_ack rest

/-- The queues of `SerialManager` relevant to `send_and_wait`. -/
structure SerialState : Type where
  ack_q : List String
  tx_q : List String

/-- `send_and_wait`: clear `ack_q`, enqueue the command for transmission
exactly once, then wait on the (drained) queue plus the lines arriving
before the deadline. -/
def send_and_wait (st : SerialState) (cmd : String)
    (arrivals : List String) : SerialState × Bool :=
  let st1 : SerialState := { st with ack_q := [] }
  let st2 : SerialState := { st1 with tx_q := st1.tx_q ++ [cmd] }
  (st2, wait_for_ack (st1.ack_q ++ arrivals))

theorem wait_for_ack_eq_any (l : List String) :
    wait_for_ack l = l.any isAckLine := by
  induction l with
  | nil => rfl
  | cons line rest ih =>
    unfold wait_for_ack
    by_cases h : isAckLine line = true
    · simp [h]
    · simp only [Bool.not_eq_true] at h
      simp [h, ih]

/-- C7: `send_and_wait` enqueues the command exactly once (no automatic
retry), succeeds exactly when some line arriving before the deadline
carries the OK/ERR prefix, and its outcome is unchanged by whatever stale
acknowledgments were queued beforehand (they are discarded first). -/
theorem send_and_wait_spec (st : SerialState) (cmd : String)
    (arrivals : List String) :
    (send_and_wait st cmd arrivals).1.tx_q = st.tx_q ++ [cmd]
    ∧ ((send_and_wait st cmd arrivals).2 = true ↔
        arrivals.any isAckLine = true)
    ∧ (∀ stale : List String,
        (send_and_wait { st with ack_q := stale } cmd arrivals).2 =
          (send_and_wait st cmd arrivals).2) := by
  refine ⟨rfl, ?_, fun stale => rfl⟩
  show wait_for_ack ([] ++ arrivals) = true ↔ arrivals.any isAckLine = true
  rw [List.nil_append, wait_for_ack_eq_any]

/-! ## Fixed-point scaling and filter dispatch

From `_Reader.run` in `src/python_mess/GUI_control/signal_backend.py` lines
160-163: raw samples are scaled by `4.5 / (1 <<< 23)` times `digital_gain`,
then the notch cascade (`filtfilt`) runs only when a notch stage is
enabled; otherwise the scaled block is published as is.  The enabled-path
IIR cascade is left abstract (its coefficients come from `scipy.iirnotch`);
only the disabled path is at issue.  `src/python_mess/UDP_server_control_
from_PC_v07.py` lines 734-737 additionally computes an equalizer FIR
(`lfilter`) and immediately overwrites the result with the unfiltered data.
-/

/-- `scale = 4.5 / (1 <<< 23)`: ADS1299 full scale over 2^(bits-1). -/
def SCALE : ℚ := (4.5 : ℚ) / ((1 <<< 23 : ℕ) : ℚ)

/-- The filter enables and gain read from the live `SigConfig`. -/
structure FilterCfg : Type where
  notch_50_on : Bool
  notch_100_on : Bool
  digital_gain : ℚ

/-- `vs = buf_raw.astype(float32) * scale * cfg.digital_gain` (line 161). -/
def scale_block (gain : ℚ) (buf_raw : List (List ℤ)) : List (List ℚ) :=
  buf_raw.map (fun row => row.map (fun s => (s : ℚ) * SCALE * gain))

/-- Lines 161-163: scale, then apply the notch cascade only if enabled. -/
def process_block (filtfilt : List (List ℚ) → List (List ℚ))
    (cfg : FilterCfg) (buf_raw : List (List ℤ)) : List (List ℚ) :=
  let vs := scale_block cfg.digital_gain buf_raw
  if cfg.notch_50_on || cfg.notch_100_on then filtfilt vs else vs

/-- v07 lines 734-737: `data_f = sps.lfilter(h_eq, 1, data)` immediately
followed by `data_f = data` — the published data is the unfiltered input. -/
def eq_stage_publish (lfilter : List ℚ → List ℚ) (data : List ℚ) :
    List ℚ :=
  let data_f := lfilter data
  data

/-- C8: with every filter stage disabled the processing chain is the exact
identity on the fixed-point-to-volts scaled samples — the published block
equals the raw integers times the fixed scale factor (times the configured
digital gain, 1 by default) — and the v07 equalizer stage publishes its
input unchanged regardless of the FIR. -/
theorem filter_chain_disabled_identity
    (filtfilt : List (List ℚ) → List (List ℚ)) (gain : ℚ)
    (buf_raw : List (List ℤ)) (lfilter : List ℚ → List ℚ)
    (data : List ℚ) :
    process_block filtfilt
        { notch_50_on := false, notch_100_on := false, digital_gain := gain }
        buf_raw = scale_block gain buf_raw
    ∧ scale_block 1 buf_raw =
        buf_raw.map (fun row => row.map (fun s => (s : ℚ) * SCALE))
    ∧ eq_stage_publish lfilter data = data := by
  refine ⟨?_, ?_, rfl⟩
  · simp [process_block]
  · simp [scale_block]

/-! ## Scalogram row selection

From `src/python_mess/GUI_control/plot_manager.py`: `ricker_cwt` (lines
64-84) allocates a zero matrix of shape `(len(widths), len(x))` and fills
row `idx` with `np.convolve(x, wavelet, mode='same')` only when
`points = max(2 * int(width), 6)` satisfies `min_points ≤ points ≤ len(x)`;
otherwise the row stays zero.  `PlotManager.update_snapshot` (lines
600-612) pre-filters the derived widths with `(2*w >= 6) & (2*w < len)`,
omitting out-of-support frequencies before the transform.  The Ricker
wavelet's sample values involve `exp` and `π`, so the wavelet generator is
an abstract parameter constrained only by its length (`np.linspace` with
`points` points); the selection logic under verification is exact.
-/

/-- `np.convolve(x, w, mode='same')`: the centered `len(x)` samples of the
full convolution (for `len(w) ≤ len(x)`). -/
def convolve_same (x w : List ℚ) : List ℚ :=
  (((List.range (x.length + w.length - 1)).map (fun k =>
      ∑ i ∈ Finset.range (k + 1), x.getD i 0 * w.getD (k - i) 0)).drop
    ((min x.length w.length - 1) / 2)).take x.length

/-- `ricker_cwt` with `min_points = 6` (the call sites use the default):
rows whose wavelet support does not fit the signal are left zero. -/
def ricker_cwt (wavelet : ℕ → ℚ → List ℚ) (x : List ℚ)
    (widths : List ℚ) : List (List ℚ) :=
  widths.map (fun width =>
    let points := max (2 * width.floor.toNat) 6
    if points < 6 ∨ points > x.length then List.replicate x.length 0
    else convolve_same x (wavelet points width))

/-- The `valid = (2 * widths >= 6) & (2 * widths < len(wav_data))` mask of
`PlotManager.update_snapshot`. -/
def wav_valid_widths (widths : List ℚ) (n : ℕ) : List ℚ :=
  widths.filter (fun w => decide (6 ≤ 2 * w ∧ 2 * w < (n : ℚ)))

theorem convolve_same_length (x w : List ℚ) (h1 : 1 ≤ w.length)
    (h2 : w.length ≤ x.length) : (convolve_same x w).length = x.length := by
  simp only [convolve_same, List.length_take, List.length_drop,
    List.length_map, List.length_range]
  omega

/-- C9: the scalogram computation is total — the output always has one row
per requested width, each of the signal's length; every width whose
wavelet support `max(2*int(width), 6)` exceeds the signal length yields an
all-zero row; and the snapshot-level width filter keeps only widths with
`2*width < len` (support strictly inside the signal), dropping every other
frequency silently. -/
theorem ricker_cwt_drops_long_wavelets (wavelet : ℕ → ℚ → List ℚ)
    (hw : ∀ p w, (wavelet p w).length = p) (x : List ℚ)
    (widths : List ℚ) :
    (ricker_cwt wavelet x widths).length = widths.length
    ∧ (∀ row ∈ ricker_cwt wavelet x widths, row.length = x.length)
    ∧ (∀ i, i < widths.length →
        x.length < max (2 * (widths.getD i 0).floor.toNat) 6 →
        (ricker_cwt wavelet x widths).getD i [] =
          List.replicate x.length 0)
    ∧ (∀ w ∈ wav_valid_widths widths x.length, 2 * w < (x.length : ℚ))
    ∧ (∀ w ∈ widths, ¬(2 * w < (x.length : ℚ)) →
        w ∉ wav_valid_widths widths x.length) := by
  refine ⟨by simp [ricker_cwt], ?_, ?_, ?_, ?_⟩
  · intro row hrow
    unfold ricker_cwt at hrow
    rw [List.mem_map] at hrow
    obtain ⟨width, _, rfl⟩ := hrow
    by_cases hc : max (2 * width.floor.toNat) 6 < 6 ∨
        max (2 * width.floor.toNat) 6 > x.length
    · simp only [hc, if_pos, List.length_replicate]
    · simp only [hc, if_neg, not_false_eq_true]
      push_neg at hc
      exact convolve_same_length x _ (by rw [hw]; omega) (by rw [hw]; omega)
  · intro i hi hbig
    have hmap : i < (ricker_cwt wavelet x widths).length := by
      simpa [ricker_cwt] using hi
    rw [List.getD_eq_getElem _ _ hmap]
    unfold ricker_cwt
    simp only [List.getElem_map]
    rw [if_pos]
    right
    rw [← List.getD_eq_getElem widths 0 hi]
    omega
  · intro w hwv
    rw [wav_valid_widths, List.mem_filter] at hwv
    exact (of_decide_eq_true hwv.2).2
  · intro w _ hnot hmem
    rw [wav_valid_widths, List.mem_filter] at hmem
    exact hnot (of_decide_eq_true hmem.2).2

/-- Witness for C9: an 8-sample signal with widths 10 and 2 — the width-10
wavelet (support 20) does not fit and its row is all zeros. -/
theorem ricker_cwt_drops_long_wavelets_witness :
    (ricker_cwt (fun p _ => List.replicate p (1 : ℚ))
      (List.replicate 8 (0 : ℚ)) [10, 2]).getD 0 [] =
      List.replicate 8 0 := by
  have h := (ricker_cwt_drops_long_wavelets
    (fun p _ => List.replicate p (1 : ℚ)) (fun p w => by simp)
    (List.replicate 8 (0 : ℚ)) [10, 2]).2.2.1 0 (by decide) (by decide)
  simpa using h

end Meower
